import Mathlib

/-!
Verification of the tic-tac-toe core of the repository: the board evaluator
(`checkWinner`, the spec's `evaluate`) and the optimal-move searcher
(`bestMove` with its inner `minimax`), shallowly embedded from
`src/minimalistic_scientific_calculator_react.jsx`.

Modelling conventions:
* A JS cell is `null | "X" | "O"`, embedded as `Cell.empty | Cell.X | Cell.O`;
  a board is the JS array of 9 cells, embedded as `List Cell` (length 9 in all
  contract statements).  `board[i]` is `cellAt` (out-of-range reads give the
  falsy `undefined`, embedded as `Cell.empty`, which is how JS treats it in
  every guard of the source).
* The source's `minimax` mutates one shared array and restores it; the
  embedding threads the board state explicitly: `minimax` returns the board it
  leaves behind, and the caller continues with that board, exactly as the JS
  loop continues with the shared array in whatever state the recursive call
  left it.
* JS failure modes are explicit: `MMOut.crash` models the TypeError raised
  when `scores[0]` is `undefined` and its fields are read; `MMOut.outOfFuel`
  is the fuel guard of the embedding (shown unreachable for fuel > number of
  empty cells).  `bestMove` returns `Option (Option Nat)`: inner `none` is the
  JS `undefined` produced when `minimax` returns a leaf object with no `.i`
  field.
-/

inductive Cell where
  | empty
  | X
  | O
deriving DecidableEq, Repr, Fintype

abbrev Board := List Cell

/-- `board[i]` as the JS source reads it: out-of-range gives `undefined`,
which is falsy, exactly like an `empty` cell in every guard of the source. -/
def cellAt (bd : Board) (i : Nat) : Cell := bd.getD i Cell.empty

/-- JS truthiness of a cell: `null` is falsy, `"X"`/`"O"` are truthy. -/
def truthy (c : Cell) : Bool := c != Cell.empty

/-- The 8 fixed win lines, in the source's enumeration order. -/
def LINES : List (Nat × Nat × Nat) :=
  [(0,1,2), (3,4,5), (6,7,8), (0,3,6), (1,4,7), (2,5,8), (0,4,8), (2,4,6)]

/-- The line scan shared by `checkWinner` and the inner `winnerCheck` of
`bestMove` (the two loops in the source are verbatim identical):
first line whose three cells are equal and truthy. -/
def winningLine : List (Nat × Nat × Nat) → Board → Option (Cell × (Nat × Nat × Nat))
  | [], _ => none
  | (a, b, c) :: rest, bd =>
    if truthy (cellAt bd a) && (cellAt bd a == cellAt bd b) && (cellAt bd a == cellAt bd c)
    then some (cellAt bd a, (a, b, c))
    else winningLine rest bd

/-- The Verdict of the spec: the shape of `checkWinner`'s JS result
(`{winner, line}` / `{winner:"draw"}` / `null`). -/
inductive Verdict where
  | inProgress
  | win (m : Cell) (line : Nat × Nat × Nat)
  | draw
deriving DecidableEq, Repr

/-- `checkWinner` from the source (the spec's `evaluate`). -/
def checkWinner (board : Board) : Verdict :=
  match winningLine LINES board with
  | some (m, l) => .win m l
  | none => if board.all truthy then .draw else .inProgress

/-- Result shape of the `winnerCheck` closure inside `bestMove`:
a mark, `"draw"`, or `null`. -/
inductive WRes where
  | mark (m : Cell)
  | draw
deriving DecidableEq, Repr

/-- The `winnerCheck` closure inside `bestMove`. -/
def winnerCheck (b : Board) : Option WRes :=
  match winningLine LINES b with
  | some (m, _) => some (.mark m)
  | none => if b.all truthy then some .draw else none

/-- `player === "X" ? "O" : "X"` -/
def opponentOf (player : Cell) : Cell := if player = Cell.X then Cell.O else Cell.X

/-- `turn === player ? opponent : player` -/
def nextTurn (player turn : Cell) : Cell :=
  if turn = player then opponentOf player else player

/-- Outcome of one `minimax` call: `ok score move finalBoard` is the JS
return object (`move = none` is a leaf object with no `.i` field) together
with the state the call leaves the shared array in; `crash` is the TypeError
from destructuring `scores[0]` when `scores` is empty; `outOfFuel` is the
embedding's fuel guard. -/
inductive MMOut where
  | ok (score : Int) (move : Option Nat) (bd : Board)
  | crash
  | outOfFuel
deriving DecidableEq, Repr

/-- The `.score` field of a result (0 if the call did not return normally). -/
def MMOut.scoreD : MMOut → Int
  | .ok s _ _ => s
  | _ => 0

/-- Outcome of the score-collecting loop of `minimax`. -/
inductive ScoresOut where
  | ok (scores : List (Nat × Int)) (bd : Board)
  | crash
  | outOfFuel
deriving DecidableEq, Repr

/-- The `for (let i = 0; i < 9; i++)` loop of `minimax`: on each empty cell,
place `turn`, run the recursive call (`next`), push `{i, score}`, restore the
cell to empty in whatever board the call left behind, and continue. -/
def mmScores (player : Cell) (next : Board → Cell → MMOut) (turn : Cell) :
    List Nat → Board → ScoresOut
  | [], bd => .ok [] bd
  | i :: rest, bd =>
    if cellAt bd i = Cell.empty then
      match next (bd.set i turn) (nextTurn player turn) with
      | .ok score _ bd1 =>
        match mmScores player next turn rest (bd1.set i Cell.empty) with
        | .ok scores bd2 => .ok ((i, score) :: scores) bd2
        | e => e
      | .crash => .crash
      | .outOfFuel => .outOfFuel
    else mmScores player next turn rest bd

/-- One step of the selection loop: `if (cmp(s.score, best.score)) best = s;`. -/
def pickStep (cmp : Int → Int → Bool) (best s : Nat × Int) : Nat × Int :=
  if cmp s.2 best.2 then s else best

/-- `let best = scores[0]; for (const s of scores) if (cmp) best = s;` —
`none` when `scores` is empty (`scores[0]` is `undefined`). -/
def pickBest (cmp : Int → Int → Bool) (scores : List (Nat × Int)) : Option (Nat × Int) :=
  match scores with
  | [] => none
  | first :: _ => some (scores.foldl (pickStep cmp) first)

/-- The recursive `minimax(bd, turn)` of the source, with `player` the
captured searching side and a fuel parameter for the embedding. -/
def minimax (player : Cell) : Nat → Board → Cell → MMOut
  | 0, _, _ => .outOfFuel
  | fuel + 1, bd, turn =>
    let res := winnerCheck bd
    if res = some (.mark player) then .ok 1 none bd
    else if res = some (.mark (opponentOf player)) then .ok (-1) none bd
    else if res = some .draw then .ok 0 none bd
    else
      match mmScores player (minimax player fuel) turn (List.range 9) bd with
      | .ok scores bd2 =>
        match
          if turn = player then pickBest (fun a b => decide (a > b)) scores
          else pickBest (fun a b => decide (a < b)) scores
        with
        | some (j, s) => .ok s (some j) bd2
        | none => .crash
      | .crash => .crash
      | .outOfFuel => .outOfFuel

/-- `bestMove(board, player)` from the source:
`return minimax([...board], player).i;`.  Outer `none` models an abnormal
termination of `minimax` (propagated exception); inner `none` is the JS
`undefined` when the returned object has no `.i` field.  Fuel 10 exceeds the
maximal recursion depth on a 9-cell board (proved below). -/
def bestMove (board : Board) (player : Cell) : Option (Option Nat) :=
  match minimax player 10 board player with
  | .ok _ i _ => some i
  | _ => none

/-- Number of empty cells of a board. -/
def emptyCount (bd : Board) : Nat := bd.count Cell.empty

/-- Score, per `minimax player fuel`, of the child obtained by playing
`turn` at cell `k`. -/
def childScore (player : Cell) (fuel : Nat) (bd : Board) (turn : Cell) (k : Nat) : Int :=
  (minimax player fuel (bd.set k turn) (nextTurn player turn)).scoreD

/-- The list of `{i, score}` pairs collected by the loop of `minimax` at a
non-terminal node, in ascending index order. -/
def scoresList (player : Cell) (fuel : Nat) (bd : Board) (turn : Cell) : List (Nat × Int) :=
  ((List.range 9).filter (fun i => cellAt bd i == Cell.empty)).map
    (fun k => (k, childScore player fuel bd turn k))

/-- Modelled from the spec (section 4.2 and the Verdict invariants): the
searching side `player` can guarantee a final outcome of score at least `v`
from board `bd` with `turn` to move, terminal positions being judged by the
Board Evaluator and scored +1 / -1 / 0 for a win of the searching side, a win
of the opponent, and a draw. -/
def forces (player : Cell) : Nat → Board → Cell → Int → Bool
  | 0, _, _, _ => false
  | fuel + 1, bd, turn, v =>
    match checkWinner bd with
    | .win m _ => if m = player then decide (v ≤ 1) else decide (v ≤ -1)
    | .draw => decide (v ≤ 0)
    | .inProgress =>
      if turn = player then
        (List.range 9).any (fun i =>
          decide (cellAt bd i = Cell.empty) &&
            forces player fuel (bd.set i turn) (nextTurn player turn) v)
      else
        (List.range 9).all (fun i =>
          !decide (cellAt bd i = Cell.empty) ||
            forces player fuel (bd.set i turn) (nextTurn player turn) v)

/-- `forces` with just enough fuel for the whole game: the game-theoretic
"player can force an outcome ≥ v" predicate. -/
def canForce (player : Cell) (bd : Board) (turn : Cell) (v : Int) : Bool :=
  forces player (emptyCount bd + 1) bd turn v

/-- The empty board. -/
def emptyBoard : Board := List.replicate 9 Cell.empty

/-- Boards reachable from the empty board when the searching side plays
`bestMove` on its turns (moving first) and the opponent replies with an
arbitrary legal move, play stopping at terminal boards. -/
inductive ReachBM (player : Cell) : Board → Cell → Prop where
  | init : ReachBM player emptyBoard player
  | pmove {bd : Board} {i : Nat} :
      ReachBM player bd player →
      checkWinner bd = Verdict.inProgress →
      bestMove bd player = some (some i) →
      ReachBM player (bd.set i player) (opponentOf player)
  | omove {bd : Board} {i : Nat} :
      ReachBM player bd (opponentOf player) →
      checkWinner bd = Verdict.inProgress →
      i < 9 →
      cellAt bd i = Cell.empty →
      ReachBM player (bd.set i (opponentOf player)) player

/-- Spec-level "line `l` is fully owned by mark `m`" (section 3, Verdict
invariant). -/
def lineWonBy (bd : Board) (m : Cell) (l : Nat × Nat × Nat) : Prop :=
  m ≠ Cell.empty ∧ cellAt bd l.1 = m ∧ cellAt bd l.2.1 = m ∧ cellAt bd l.2.2 = m

instance (bd : Board) (m : Cell) (l : Nat × Nat × Nat) : Decidable (lineWonBy bd m l) := by
  unfold lineWonBy
  infer_instance

/-- `Verdict.win` for a given mark, as a Boolean. -/
def Verdict.isWinFor : Verdict → Cell → Bool
  | .win m _, c => m == c
  | _, _ => false

/-- Spec scenario board for the blocking test: A at 0, B at 3 and 4. -/
def blockBoard : Board :=
  [Cell.X, Cell.empty, Cell.empty, Cell.O, Cell.O,
   Cell.empty, Cell.empty, Cell.empty, Cell.empty]

/-- A fully occupied board with no completed line. -/
def fullDrawBoard : Board :=
  [Cell.X, Cell.O, Cell.X, Cell.X, Cell.O, Cell.O, Cell.O, Cell.X, Cell.X]

/-- An illegally double-won board: rows 0 and 1 are X's, row 2 is O's. -/
def doubleWonBoard : Board :=
  [Cell.X, Cell.X, Cell.X, Cell.X, Cell.X, Cell.X, Cell.O, Cell.O, Cell.O]

/-- A small in-progress position (two empty cells) used to instantiate
hypothesised theorems: X at 0, 4, 8 would win, so keep it undecided:
X at 0 and 1, O at 3, 4 and 2, X at 6, O at 7 — cells 5 and 8 empty. -/
def smallBoard : Board :=
  [Cell.X, Cell.X, Cell.O, Cell.O, Cell.O, Cell.empty, Cell.X, Cell.X, Cell.empty]

/-- A terminal board: X has completed the top row. -/
def wonBoard : Board :=
  [Cell.X, Cell.X, Cell.X, Cell.O, Cell.O,
   Cell.empty, Cell.empty, Cell.empty, Cell.empty]

/-! ### Basic board lemmas -/

theorem cellAt_set_self {bd : Board} {i : Nat} (h : i < bd.length) (c : Cell) :
    cellAt (bd.set i c) i = c := by
  simp [cellAt, List.getD_eq_getElem?_getD, List.getElem?_set_self h]

theorem cellAt_set_ne {bd : Board} {i j : Nat} (h : i ≠ j) (c : Cell) :
    cellAt (bd.set i c) j = cellAt bd j := by
  simp [cellAt, List.getD_eq_getElem?_getD, List.getElem?_set_ne h]

theorem cellAt_eq_getElem {bd : Board} {i : Nat} (h : i < bd.length) :
    cellAt bd i = bd[i] := List.getD_eq_getElem bd Cell.empty h

theorem set_cellAt_empty {bd : Board} {i : Nat} (h : cellAt bd i = Cell.empty) :
    bd.set i Cell.empty = bd := by
  apply List.ext_getElem?
  intro n
  rw [List.getElem?_set]
  by_cases hin : i = n
  · subst hin
    by_cases hlt : i < bd.length
    · simp only [hlt, if_true, if_pos rfl]
      rw [cellAt_eq_getElem hlt] at h
      rw [List.getElem?_eq_getElem hlt, h]
    · rw [if_pos rfl, if_neg hlt, eq_comm, List.getElem?_eq_none_iff]
      omega
  · simp [hin]

theorem emptyCount_pos {bd : Board} {i : Nat} (hi : i < bd.length)
    (he : cellAt bd i = Cell.empty) : 0 < emptyCount bd := by
  rw [emptyCount, List.count_pos_iff]
  rw [cellAt_eq_getElem hi] at he
  exact he ▸ List.getElem_mem hi

theorem emptyCount_set {bd : Board} {i : Nat} (hi : i < bd.length)
    (he : cellAt bd i = Cell.empty) {c : Cell} (hc : c ≠ Cell.empty) :
    emptyCount (bd.set i c) + 1 = emptyCount bd := by
  have hb : bd[i] = Cell.empty := by rw [← cellAt_eq_getElem hi]; exact he
  have := List.count_set c Cell.empty bd i hi
  rw [emptyCount, emptyCount, this, hb]
  simp only [beq_self_eq_true, if_true, beq_iff_eq]
  rw [if_neg hc]
  have hpos : 0 < List.count Cell.empty bd := emptyCount_pos hi he
  omega

theorem emptyCount_le (bd : Board) : emptyCount bd ≤ bd.length :=
  List.count_le_length Cell.empty bd

theorem all_truthy_iff {bd : Board} :
    bd.all truthy = true ↔ ∀ i, i < bd.length → cellAt bd i ≠ Cell.empty := by
  rw [List.all_eq_true]
  constructor
  · intro h i hi
    rw [cellAt_eq_getElem hi]
    have := h bd[i] (List.getElem_mem hi)
    simpa [truthy] using this
  · intro h x hx
    rcases List.mem_iff_getElem.1 hx with ⟨n, hn, rfl⟩
    have := h n hn
    rw [cellAt_eq_getElem hn] at this
    simpa [truthy] using this

theorem not_all_truthy_iff {bd : Board} :
    bd.all truthy = false ↔ ∃ i, i < bd.length ∧ cellAt bd i = Cell.empty := by
  rw [← Bool.not_eq_true, all_truthy_iff]
  push_neg
  simp

/-! ### Line-scan lemmas -/

theorem winningLine_mark_ne_empty : ∀ {ls : List (Nat × Nat × Nat)} {bd : Board}
    {m : Cell} {l : Nat × Nat × Nat}, winningLine ls bd = some (m, l) → m ≠ Cell.empty
  | [], _, _, _, h => by simp [winningLine] at h
  | (a, b, c) :: rest, bd, m, l, h => by
    rw [winningLine] at h
    split at h
    · rename_i hg
      simp only [Bool.and_eq_true, truthy, bne_iff_ne, ne_eq] at hg
      cases h
      exact hg.1.1
    · exact winningLine_mark_ne_empty h

theorem winningLine_of_first {bd : Board} {l : Nat × Nat × Nat} {m : Cell}
    (hwin : lineWonBy bd m l) :
    ∀ {pre suf : List (Nat × Nat × Nat)},
      (∀ l' ∈ pre, ∀ m', ¬ lineWonBy bd m' l') →
      winningLine (pre ++ l :: suf) bd = some (m, l) := by
  intro pre
  induction pre with
  | nil =>
    intro suf _
    obtain ⟨hm, h1, h2, h3⟩ := hwin
    obtain ⟨a, b, c⟩ := l
    simp only [List.nil_append, winningLine]
    rw [if_pos]
    · simp_all
    · simp only [Bool.and_eq_true, truthy, bne_iff_ne, ne_eq, beq_iff_eq]
      simp_all
  | cons p pre ih =>
    intro suf hpre
    obtain ⟨a, b, c⟩ := p
    simp only [List.cons_append, winningLine]
    rw [if_neg]
    · exact ih (fun l' hl' m' => hpre l' (List.mem_cons_of_mem _ hl') m')
    · intro hg
      simp only [Bool.and_eq_true, truthy, bne_iff_ne, ne_eq, beq_iff_eq] at hg
      exact hpre (a, b, c) (List.mem_cons_self _ _) (cellAt bd a)
        ⟨hg.1.1, rfl, hg.1.2.symm, hg.2.symm⟩

theorem winningLine_none {bd : Board} :
    ∀ {ls : List (Nat × Nat × Nat)}, (∀ l ∈ ls, ∀ m, ¬ lineWonBy bd m l) →
      winningLine ls bd = none
  | [], _ => rfl
  | (a, b, c) :: rest, h => by
    rw [winningLine]
    rw [if_neg]
    · exact winningLine_none (fun l hl m => h l (List.mem_cons_of_mem _ hl) m)
    · intro hg
      simp only [Bool.and_eq_true, truthy, bne_iff_ne, ne_eq, beq_iff_eq] at hg
      exact h (a, b, c) (List.mem_cons_self _ _) (cellAt bd a)
        ⟨hg.1.1, rfl, hg.1.2.symm, hg.2.symm⟩

/-! ### `checkWinner` / `winnerCheck` correspondence -/

theorem winnerCheck_none_iff {bd : Board} :
    winnerCheck bd = none ↔ checkWinner bd = Verdict.inProgress := by
  rw [winnerCheck, checkWinner]
  cases h : winningLine LINES bd with
  | some p => obtain ⟨m, l⟩ := p; simp
  | none => by_cases ha : bd.all truthy <;> simp [ha]

theorem winnerCheck_of_win {bd : Board} {m : Cell} {l : Nat × Nat × Nat}
    (h : checkWinner bd = Verdict.win m l) : winnerCheck bd = some (WRes.mark m) := by
  rw [checkWinner] at h
  rw [winnerCheck]
  cases hw : winningLine LINES bd with
  | some p =>
    obtain ⟨m', l'⟩ := p
    rw [hw] at h
    cases h
    rfl
  | none =>
    rw [hw] at h
    by_cases ha : bd.all truthy <;> simp [ha] at h

theorem winnerCheck_of_draw {bd : Board} (h : checkWinner bd = Verdict.draw) :
    winnerCheck bd = some WRes.draw := by
  rw [checkWinner] at h
  rw [winnerCheck]
  cases hw : winningLine LINES bd with
  | some p =>
    obtain ⟨m', l'⟩ := p
    rw [hw] at h
    cases h
  | none =>
    rw [hw] at h
    by_cases ha : bd.all truthy <;> simp [ha] at h ⊢

theorem winnerCheck_mark_cases {bd : Board} {m : Cell}
    (h : winnerCheck bd = some (WRes.mark m)) :
    m ≠ Cell.empty ∧ ∃ l, checkWinner bd = Verdict.win m l := by
  rw [winnerCheck] at h
  cases hw : winningLine LINES bd with
  | some p =>
    obtain ⟨m', l'⟩ := p
    rw [hw] at h
    cases h
    exact ⟨winningLine_mark_ne_empty hw, l', by rw [checkWinner, hw]⟩
  | none =>
    rw [hw] at h
    by_cases ha : bd.all truthy <;> simp [ha] at h

theorem winnerCheck_draw_elim {bd : Board} (h : winnerCheck bd = some WRes.draw) :
    checkWinner bd = Verdict.draw := by
  rw [winnerCheck] at h
  rw [checkWinner]
  cases hw : winningLine LINES bd with
  | some p =>
    obtain ⟨m', l'⟩ := p
    rw [hw] at h
    cases h
  | none =>
    rw [hw] at h
    by_cases ha : bd.all truthy <;> simp [ha] at h ⊢

/-! ### Selection-loop (`pickBest`) lemmas -/

theorem foldl_pickStep_mem (cmp : Int → Int → Bool) :
    ∀ (l : List (Nat × Int)) (b : Nat × Int),
      l.foldl (pickStep cmp) b = b ∨ l.foldl (pickStep cmp) b ∈ l
  | [], _ => Or.inl rfl
  | y :: t, b => by
    simp only [List.foldl_cons]
    rcases foldl_pickStep_mem cmp t (pickStep cmp b y) with h | h
    · rw [h, pickStep]
      by_cases hc : cmp y.2 b.2
      · rw [if_pos hc]; exact Or.inr (List.mem_cons_self _ _)
      · rw [if_neg hc]; exact Or.inl rfl
    · exact Or.inr (List.mem_cons_of_mem _ h)

theorem foldl_pickStep_ub (cmp : Int → Int → Bool)
    (hc : ∀ a b : Int, cmp a b = true ↔ b < a) :
    ∀ (l : List (Nat × Int)) (b : Nat × Int),
      b.2 ≤ (l.foldl (pickStep cmp) b).2 ∧
        ∀ x ∈ l, x.2 ≤ (l.foldl (pickStep cmp) b).2
  | [], b => ⟨le_refl _, by simp⟩
  | y :: t, b => by
    simp only [List.foldl_cons]
    obtain ⟨h1, h2⟩ := foldl_pickStep_ub cmp hc t (pickStep cmp b y)
    have hby : b.2 ≤ (pickStep cmp b y).2 ∧ y.2 ≤ (pickStep cmp b y).2 := by
      rw [pickStep]
      by_cases hcc : cmp y.2 b.2
      · rw [if_pos hcc]
        exact ⟨le_of_lt ((hc _ _).1 hcc), le_refl _⟩
      · rw [if_neg hcc]
        refine ⟨le_refl _, ?_⟩
        have := (hc y.2 b.2).not.1 (by simp [hcc])
        omega
    refine ⟨le_trans hby.1 h1, ?_⟩
    intro x hx
    rcases List.mem_cons.1 hx with rfl | hx
    · exact le_trans hby.2 h1
    · exact h2 x hx

theorem foldl_pickStep_lb (cmp : Int → Int → Bool)
    (hc : ∀ a b : Int, cmp a b = true ↔ a < b) :
    ∀ (l : List (Nat × Int)) (b : Nat × Int),
      (l.foldl (pickStep cmp) b).2 ≤ b.2 ∧
        ∀ x ∈ l, (l.foldl (pickStep cmp) b).2 ≤ x.2
  | [], b => ⟨le_refl _, by simp⟩
  | y :: t, b => by
    simp only [List.foldl_cons]
    obtain ⟨h1, h2⟩ := foldl_pickStep_lb cmp hc t (pickStep cmp b y)
    have hby : (pickStep cmp b y).2 ≤ b.2 ∧ (pickStep cmp b y).2 ≤ y.2 := by
      rw [pickStep]
      by_cases hcc : cmp y.2 b.2
      · rw [if_pos hcc]
        exact ⟨le_of_lt ((hc _ _).1 hcc), le_refl _⟩
      · rw [if_neg hcc]
        refine ⟨le_refl _, ?_⟩
        have := (hc y.2 b.2).not.1 (by simp [hcc])
        omega
    refine ⟨le_trans h1 hby.1, ?_⟩
    intro x hx
    rcases List.mem_cons.1 hx with rfl | hx
    · exact le_trans h1 hby.2
    · exact h2 x hx

theorem foldl_pickStep_strict (cmp : Int → Int → Bool)
    (hc : ∀ a b : Int, cmp a b = true ↔ b < a) :
    ∀ (l : List (Nat × Int)) (b : Nat × Int),
      l.foldl (pickStep cmp) b = b ∨ b.2 < (l.foldl (pickStep cmp) b).2
  | [], _ => Or.inl rfl
  | y :: t, b => by
    simp only [List.foldl_cons]
    by_cases hcc : cmp y.2 b.2
    · right
      have hyb : b.2 < y.2 := (hc _ _).1 hcc
      have hstep : pickStep cmp b y = y := by rw [pickStep, if_pos hcc]
      rw [hstep]
      rcases foldl_pickStep_strict cmp hc t y with h | h
      · rw [h]; exact hyb
      · exact lt_trans hyb h
    · have hstep : pickStep cmp b y = b := by rw [pickStep, if_neg hcc]
      rw [hstep]
      exact foldl_pickStep_strict cmp hc t b

theorem foldl_pickStep_first (cmp : Int → Int → Bool)
    (hc : ∀ a b : Int, cmp a b = true ↔ b < a) :
    ∀ (l : List (Nat × Int)) (b : Nat × Int),
      List.Pairwise (fun x y : Nat × Int => x.1 < y.1) (b :: l) →
      ∀ x ∈ b :: l, x.1 < (l.foldl (pickStep cmp) b).1 → x.2 < (l.foldl (pickStep cmp) b).2
  | [], b, _, x, hx, hlt => by
    simp only [List.foldl_nil] at hlt ⊢
    rcases List.mem_singleton.1 hx with rfl
    omega
  | y :: t, b, hsort, x, hx, hlt => by
    simp only [List.foldl_cons] at hlt ⊢
    by_cases hcc : cmp y.2 b.2
    · have hstep : pickStep cmp b y = y := by rw [pickStep, if_pos hcc]
      rw [hstep] at hlt ⊢
      have hsort' : List.Pairwise (fun x y : Nat × Int => x.1 < y.1) (y :: t) :=
        (List.pairwise_cons.1 hsort).2
      rcases List.mem_cons.1 hx with rfl | hx'
      · -- x = b, dropped out of the list: b.2 < y.2 ≤ result
        have hyb : x.2 < y.2 := (hc _ _).1 hcc
        exact lt_of_lt_of_le hyb (foldl_pickStep_ub cmp hc t y).1
      · exact foldl_pickStep_first cmp hc t y hsort' x hx' hlt
    · have hstep : pickStep cmp b y = b := by rw [pickStep, if_neg hcc]
      rw [hstep] at hlt ⊢
      have hby : b.1 < y.1 := (List.pairwise_cons.1 hsort).1 y (List.mem_cons_self _ _)
      have hsort' : List.Pairwise (fun x y : Nat × Int => x.1 < y.1) (b :: t) := by
        rcases List.pairwise_cons.1 hsort with ⟨hb, hyt⟩
        rw [List.pairwise_cons]
        exact ⟨fun z hz => hb z (List.mem_cons_of_mem _ hz),
          (List.pairwise_cons.1 hyt).2⟩
      rcases List.mem_cons.1 hx with rfl | hx'
      · exact foldl_pickStep_first cmp hc t _ hsort' x (List.mem_cons_self _ _) hlt
      rcases List.mem_cons.1 hx' with rfl | hx''
      · -- x = y, dropped because y.2 ≤ b.2; result is b or strictly above b
        have hyx : x.2 ≤ b.2 := by
          have := (hc x.2 b.2).not.1 (by simp [hcc])
          omega
        rcases foldl_pickStep_strict cmp hc t b with h | h
        · rw [h] at hlt; omega
        · omega
      · exact foldl_pickStep_first cmp hc t b hsort' x (List.mem_cons_of_mem _ hx'') hlt

theorem pickBest_isSome (cmp : Int → Int → Bool) {l : List (Nat × Int)} (h : l ≠ []) :
    ∃ r, pickBest cmp l = some r := by
  cases l with
  | nil => exact absurd rfl h
  | cons a t => exact ⟨_, rfl⟩

theorem pickBest_mem {cmp : Int → Int → Bool} {l : List (Nat × Int)} {r : Nat × Int}
    (h : pickBest cmp l = some r) : r ∈ l := by
  cases l with
  | nil => cases h
  | cons a t =>
    rw [pickBest] at h
    cases h
    rcases foldl_pickStep_mem cmp (a :: t) a with h | h
    · rw [h]; exact List.mem_cons_self _ _
    · exact h

theorem pickBest_max {l : List (Nat × Int)} {j : Nat} {s : Int}
    (h : pickBest (fun a b => decide (a > b)) l = some (j, s)) :
    ∀ x ∈ l, x.2 ≤ s := by
  cases l with
  | nil => cases h
  | cons a t =>
    have h2 : some ((a :: t).foldl (pickStep fun a b => decide (a > b)) a) = some (j, s) := h
    have h3 := Option.some.inj h2
    intro x hx
    have := (foldl_pickStep_ub (fun a b => decide (a > b))
      (by intro a b; simp) (a :: t) a).2 x hx
    rw [h3] at this
    exact this

theorem pickBest_min {l : List (Nat × Int)} {j : Nat} {s : Int}
    (h : pickBest (fun a b => decide (a < b)) l = some (j, s)) :
    ∀ x ∈ l, s ≤ x.2 := by
  cases l with
  | nil => cases h
  | cons a t =>
    have h2 : some ((a :: t).foldl (pickStep fun a b => decide (a < b)) a) = some (j, s) := h
    have h3 := Option.some.inj h2
    intro x hx
    have := (foldl_pickStep_lb (fun a b => decide (a < b))
      (by intro a b; simp) (a :: t) a).2 x hx
    rw [h3] at this
    exact this

theorem pickStep_self (cmp : Int → Int → Bool) (a : Nat × Int) : pickStep cmp a a = a := by
  rw [pickStep]
  split <;> rfl

theorem pickBest_max_first {l : List (Nat × Int)} {j : Nat} {s : Int}
    (hsort : List.Pairwise (fun x y : Nat × Int => x.1 < y.1) l)
    (h : pickBest (fun a b => decide (a > b)) l = some (j, s)) :
    ∀ x ∈ l, x.1 < j → x.2 < s := by
  cases l with
  | nil => cases h
  | cons a t =>
    have h2 : some ((a :: t).foldl (pickStep fun a b => decide (a > b)) a) = some (j, s) := h
    have h3 := Option.some.inj h2
    rw [List.foldl_cons, pickStep_self] at h3
    intro x hx hlt
    have := foldl_pickStep_first (fun a b => decide (a > b))
      (by intro a b; simp) t a hsort x hx
    rw [h3] at this
    exact this hlt

/-! ### Mark bookkeeping -/

theorem opponentOf_ne_empty (player : Cell) : opponentOf player ≠ Cell.empty := by
  rw [opponentOf]
  split <;> simp

theorem opponentOf_ne_self (player : Cell) : opponentOf player ≠ player := by
  cases player <;> simp [opponentOf]

theorem nextTurn_ne_empty {player : Cell} (hp : player ≠ Cell.empty) (turn : Cell) :
    nextTurn player turn ≠ Cell.empty := by
  rw [nextTurn]
  split
  · exact opponentOf_ne_empty player
  · exact hp

theorem mark_eq_player_or_opponent {player m : Cell} (hp : player ≠ Cell.empty)
    (hm : m ≠ Cell.empty) : m = player ∨ m = opponentOf player := by
  cases player <;> cases m <;> simp_all [opponentOf]

theorem winnerCheck_none_not_full {bd : Board} (h : winnerCheck bd = none) :
    bd.all truthy = false := by
  rw [winnerCheck] at h
  cases hw : winningLine LINES bd with
  | some p => obtain ⟨m, l⟩ := p; rw [hw] at h; cases h
  | none =>
    rw [hw] at h
    by_cases ha : bd.all truthy
    · rw [if_pos ha] at h; cases h
    · exact Bool.not_eq_true _ ▸ ha

/-! ### `minimax` structure lemmas -/

theorem minimax_mark {player : Cell} {bd : Board} {turn m : Cell} {fuel : Nat}
    (hp : player ≠ Cell.empty) (h : winnerCheck bd = some (WRes.mark m)) :
    minimax player (fuel + 1) bd turn = .ok (if m = player then 1 else -1) none bd := by
  have hm : m ≠ Cell.empty := (winnerCheck_mark_cases h).1
  by_cases hmp : m = player
  · subst hmp
    rw [minimax]
    simp [h]
  · have hmo : m = opponentOf player :=
      (mark_eq_player_or_opponent hp hm).resolve_left hmp
    rw [minimax]
    simp only [h]
    rw [if_neg (by simp [hmp]), if_pos (by rw [hmo]), if_neg hmp]

theorem minimax_draw {player : Cell} {bd : Board} {turn : Cell} {fuel : Nat}
    (h : winnerCheck bd = some WRes.draw) :
    minimax player (fuel + 1) bd turn = .ok 0 none bd := by
  rw [minimax]
  simp [h]

theorem mmScores_eq {player : Cell} {next : Board → Cell → MMOut} {turn : Cell} {bd : Board}
    (hnext : ∀ i, i < 9 → cellAt bd i = Cell.empty →
      ∃ s mi, next (bd.set i turn) (nextTurn player turn) = .ok s mi (bd.set i turn)) :
    ∀ idxs : List Nat, (∀ i ∈ idxs, i < 9) →
      mmScores player next turn idxs bd =
        .ok ((idxs.filter (fun i => cellAt bd i == Cell.empty)).map
          (fun k => (k, (next (bd.set k turn) (nextTurn player turn)).scoreD))) bd
  | [], _ => rfl
  | i :: rest, hall => by
    have hi9 : i < 9 := hall i (List.mem_cons_self _ _)
    have hrest : ∀ k ∈ rest, k < 9 := fun k hk => hall k (List.mem_cons_of_mem _ hk)
    rw [mmScores]
    by_cases he : cellAt bd i = Cell.empty
    · rw [if_pos he]
      obtain ⟨s, mi, hok⟩ := hnext i hi9 he
      rw [hok]
      have hrestore : (bd.set i turn).set i Cell.empty = bd := by
        rw [List.set_set, set_cellAt_empty he]
      dsimp only
      rw [hrestore, mmScores_eq hnext rest hrest]
      simp [List.filter_cons, he, hok, MMOut.scoreD]
    · rw [if_neg he]
      rw [mmScores_eq hnext rest hrest]
      simp [List.filter_cons, he]

theorem scoresList_ne_nil (player : Cell) (fuel : Nat) {bd : Board} (turn : Cell)
    (hlen : bd.length = 9) (hw : winnerCheck bd = none) :
    scoresList player fuel bd turn ≠ [] := by
  have hfull := winnerCheck_none_not_full hw
  obtain ⟨i, hi, he⟩ := not_all_truthy_iff.1 hfull
  rw [hlen] at hi
  have hmem : i ∈ (List.range 9).filter (fun i => cellAt bd i == Cell.empty) :=
    List.mem_filter.2 ⟨List.mem_range.2 hi, by simp [he]⟩
  intro hnil
  rw [scoresList] at hnil
  rw [List.map_eq_nil_iff] at hnil
  rw [hnil] at hmem
  cases hmem

theorem minimax_progress_aux {player : Cell} (hp : player ≠ Cell.empty) {fuel : Nat}
    {bd : Board} {turn : Cell} (hlen : bd.length = 9) (ht : turn ≠ Cell.empty)
    (hw : winnerCheck bd = none) (hfuel : emptyCount bd < fuel + 1)
    (hrec : ∀ bd' turn', bd'.length = 9 → turn' ≠ Cell.empty → emptyCount bd' < fuel →
      ∃ s mi, minimax player fuel bd' turn' = .ok s mi bd') :
    ∃ j s,
      (if turn = player then pickBest (fun a b => decide (a > b)) (scoresList player fuel bd turn)
       else pickBest (fun a b => decide (a < b)) (scoresList player fuel bd turn)) = some (j, s) ∧
      minimax player (fuel + 1) bd turn = .ok s (some j) bd := by
  have hnext : ∀ i, i < 9 → cellAt bd i = Cell.empty →
      ∃ s mi, minimax player fuel (bd.set i turn) (nextTurn player turn) =
        .ok s mi (bd.set i turn) := by
    intro i hi he
    apply hrec
    · rw [List.length_set, hlen]
    · exact nextTurn_ne_empty hp turn
    · have := emptyCount_set (by omega : i < bd.length) he ht
      omega
  have hloop := mmScores_eq hnext (List.range 9) (fun i hi => List.mem_range.1 hi)
  have hLeq : ((List.range 9).filter (fun i => cellAt bd i == Cell.empty)).map
      (fun k => (k, (minimax player fuel (bd.set k turn) (nextTurn player turn)).scoreD)) =
      scoresList player fuel bd turn := rfl
  rw [hLeq] at hloop
  have hnn := scoresList_ne_nil player fuel turn hlen hw
  by_cases htp : turn = player
  · obtain ⟨⟨j, s⟩, hpick⟩ :=
      pickBest_isSome (fun a b => decide (a > b)) hnn
    refine ⟨j, s, by rw [if_pos htp]; exact hpick, ?_⟩
    rw [minimax]
    simp only [hw]
    rw [if_neg (by simp), if_neg (by simp), if_neg (by simp)]
    rw [hloop]
    simp only [if_pos htp, hpick]
  · obtain ⟨⟨j, s⟩, hpick⟩ :=
      pickBest_isSome (fun a b => decide (a < b)) hnn
    refine ⟨j, s, by rw [if_neg htp]; exact hpick, ?_⟩
    rw [minimax]
    simp only [hw]
    rw [if_neg (by simp), if_neg (by simp), if_neg (by simp)]
    rw [hloop]
    simp only [if_neg htp, hpick]

theorem minimax_total {player : Cell} (hp : player ≠ Cell.empty) :
    ∀ fuel bd turn, bd.length = 9 → turn ≠ Cell.empty → emptyCount bd < fuel →
      ∃ s mi, minimax player fuel bd turn = .ok s mi bd := by
  intro fuel
  induction fuel with
  | zero => intro bd turn _ _ h; omega
  | succ fuel ih =>
    intro bd turn hlen ht hfuel
    cases hw : winnerCheck bd with
    | some r =>
      cases r with
      | mark m => exact ⟨_, _, minimax_mark hp hw⟩
      | draw => exact ⟨0, none, minimax_draw hw⟩
    | none =>
      obtain ⟨j, s, _, hmm⟩ := minimax_progress_aux hp hlen ht hw hfuel ih
      exact ⟨s, some j, hmm⟩

theorem minimax_progress {player : Cell} (hp : player ≠ Cell.empty) {fuel : Nat}
    {bd : Board} {turn : Cell} (hlen : bd.length = 9) (ht : turn ≠ Cell.empty)
    (hw : winnerCheck bd = none) (hfuel : emptyCount bd < fuel + 1) :
    ∃ j s,
      (if turn = player then pickBest (fun a b => decide (a > b)) (scoresList player fuel bd turn)
       else pickBest (fun a b => decide (a < b)) (scoresList player fuel bd turn)) = some (j, s) ∧
      minimax player (fuel + 1) bd turn = .ok s (some j) bd :=
  minimax_progress_aux hp hlen ht hw hfuel
    (fun bd' turn' h1 h2 h3 => minimax_total hp fuel bd' turn' h1 h2 h3)

/-! ### `scoresList` membership and ordering -/

theorem mem_scoresList {player : Cell} {fuel : Nat} {bd : Board} {turn : Cell}
    {k : Nat} {t : Int} :
    (k, t) ∈ scoresList player fuel bd turn ↔
      k < 9 ∧ cellAt bd k = Cell.empty ∧ t = childScore player fuel bd turn k := by
  rw [scoresList, List.mem_map]
  constructor
  · rintro ⟨a, ha, heq⟩
    obtain ⟨ha1, ha2⟩ := List.mem_filter.1 ha
    simp only [Prod.mk.injEq] at heq
    obtain ⟨rfl, rfl⟩ := heq
    exact ⟨List.mem_range.1 ha1, by simpa using ha2, rfl⟩
  · rintro ⟨h1, h2, rfl⟩
    exact ⟨k, List.mem_filter.2 ⟨List.mem_range.2 h1, by simp [h2]⟩, rfl⟩

theorem scoresList_sorted (player : Cell) (fuel : Nat) (bd : Board) (turn : Cell) :
    List.Pairwise (fun x y : Nat × Int => x.1 < y.1) (scoresList player fuel bd turn) := by
  rw [scoresList]
  refine List.Pairwise.map _ (fun a b h => h) ?_
  exact List.Pairwise.filter _ (List.pairwise_lt_range 9)

/-! ### Boolean congruence helpers -/

theorem list_any_congr {l : List Nat} {p q : Nat → Bool} (h : ∀ a ∈ l, p a = q a) :
    l.any p = l.any q := by
  cases hq : l.any q with
  | false =>
    rw [Bool.eq_false_iff]
    intro hp
    obtain ⟨x, hx, hpx⟩ := List.any_eq_true.1 hp
    rw [h x hx] at hpx
    have hqt : l.any q = true := List.any_eq_true.2 ⟨x, hx, hpx⟩
    rw [hq] at hqt
    cases hqt
  | true =>
    obtain ⟨x, hx, hqx⟩ := List.any_eq_true.1 hq
    exact List.any_eq_true.2 ⟨x, hx, (h x hx).symm ▸ hqx⟩

theorem list_all_congr {l : List Nat} {p q : Nat → Bool} (h : ∀ a ∈ l, p a = q a) :
    l.all p = l.all q := by
  cases hq : l.all q with
  | false =>
    rw [Bool.eq_false_iff]
    intro hp
    have hqt : l.all q = true :=
      List.all_eq_true.2 fun x hx => h x hx ▸ List.all_eq_true.1 hp x hx
    rw [hq] at hqt
    cases hqt
  | true =>
    exact List.all_eq_true.2 fun x hx => (h x hx).symm ▸ List.all_eq_true.1 hq x hx

/-! ### `forces` versus the `minimax` score -/

theorem forces_iff {player : Cell} (hp : player ≠ Cell.empty) :
    ∀ fuel, ∀ {bd : Board} {turn : Cell}, bd.length = 9 → turn ≠ Cell.empty →
      emptyCount bd < fuel → ∀ v : Int,
      (forces player fuel bd turn v = true ↔ v ≤ (minimax player fuel bd turn).scoreD) := by
  intro fuel
  induction fuel with
  | zero => intro bd turn _ _ h; omega
  | succ fuel ih =>
    intro bd turn hlen ht hfuel v
    cases hw : winnerCheck bd with
    | some r =>
      cases r with
      | mark m =>
        obtain ⟨hm, l, hcw⟩ := winnerCheck_mark_cases hw
        rw [minimax_mark hp hw, forces, hcw]
        by_cases hmp : m = player <;> simp [hmp, MMOut.scoreD]
      | draw =>
        rw [minimax_draw hw, forces, winnerCheck_draw_elim hw]
        simp [MMOut.scoreD]
    | none =>
      have hprog := winnerCheck_none_iff.1 hw
      obtain ⟨j, s, hpick, hmm⟩ := minimax_progress hp hlen ht hw hfuel
      rw [hmm]
      have hchild : ∀ i, i < 9 → cellAt bd i = Cell.empty →
          (forces player fuel (bd.set i turn) (nextTurn player turn) v = true ↔
            v ≤ childScore player fuel bd turn i) := by
        intro i hi he
        have hcnt := emptyCount_set (by omega : i < bd.length) he ht
        exact ih (by rw [List.length_set, hlen]) (nextTurn_ne_empty hp turn) (by omega) v
      rw [forces, hprog]
      by_cases htp : turn = player
      · rw [if_pos htp] at hpick ⊢
        simp only [MMOut.scoreD, List.any_eq_true, Bool.and_eq_true, decide_eq_true_iff,
          List.mem_range]
        constructor
        · rintro ⟨i, hi, he, hf⟩
          have hv : v ≤ childScore player fuel bd turn i := (hchild i hi he).1 hf
          have hmem : (i, childScore player fuel bd turn i) ∈ scoresList player fuel bd turn :=
            mem_scoresList.2 ⟨hi, he, rfl⟩
          exact le_trans hv (pickBest_max hpick _ hmem)
        · intro hv
          obtain ⟨hj, hje, hjs⟩ := mem_scoresList.1 (pickBest_mem hpick)
          exact ⟨j, hj, hje, (hchild j hj hje).2 (hjs ▸ hv)⟩
      · rw [if_neg htp] at hpick ⊢
        simp only [MMOut.scoreD, List.all_eq_true, Bool.or_eq_true, Bool.not_eq_true',
          decide_eq_false_iff_not, decide_eq_true_iff, List.mem_range]
        constructor
        · intro hall
          obtain ⟨hj, hje, hjs⟩ := mem_scoresList.1 (pickBest_mem hpick)
          rcases hall j hj with he | hf
          · exact absurd hje he
          · exact hjs ▸ (hchild j hj hje).1 hf
        · intro hv i hi
          by_cases he : cellAt bd i = Cell.empty
          · right
            refine (hchild i hi he).2 ?_
            have hmem : (i, childScore player fuel bd turn i) ∈ scoresList player fuel bd turn :=
              mem_scoresList.2 ⟨hi, he, rfl⟩
            exact le_trans hv (pickBest_min hpick _ hmem)
          · exact Or.inl he

theorem forces_win_eq {player : Cell} {fuel : Nat} {bd : Board} {turn m : Cell}
    {l : Nat × Nat × Nat} {v : Int} (hcw : checkWinner bd = Verdict.win m l) :
    forces player (fuel + 1) bd turn v =
      if m = player then decide (v ≤ 1) else decide (v ≤ -1) := by
  rw [forces, hcw]

theorem forces_draw_eq {player : Cell} {fuel : Nat} {bd : Board} {turn : Cell} {v : Int}
    (hcw : checkWinner bd = Verdict.draw) :
    forces player (fuel + 1) bd turn v = decide (v ≤ 0) := by
  rw [forces, hcw]

theorem forces_progress_eq {player : Cell} {fuel : Nat} {bd : Board} {turn : Cell} {v : Int}
    (hcw : checkWinner bd = Verdict.inProgress) :
    forces player (fuel + 1) bd turn v =
      if turn = player then
        (List.range 9).any (fun i =>
          decide (cellAt bd i = Cell.empty) &&
            forces player fuel (bd.set i turn) (nextTurn player turn) v)
      else
        (List.range 9).all (fun i =>
          !decide (cellAt bd i = Cell.empty) ||
            forces player fuel (bd.set i turn) (nextTurn player turn) v) := by
  rw [forces, hcw]

theorem forces_mono_fuel {player : Cell} :
    ∀ {fuel fuel' : Nat}, fuel ≤ fuel' → ∀ {bd : Board} {turn : Cell} {v : Int},
      forces player fuel bd turn v = true → forces player fuel' bd turn v = true := by
  intro fuel
  induction fuel with
  | zero =>
    intro fuel' _ bd turn v h
    rw [forces] at h
    cases h
  | succ fuel ih =>
    intro fuel' hle bd turn v h
    cases fuel' with
    | zero => omega
    | succ k =>
      have hlek : fuel ≤ k := by omega
      cases hcw : checkWinner bd with
      | inProgress =>
        rw [forces_progress_eq hcw] at h ⊢
        by_cases htp : turn = player
        · rw [if_pos htp] at h ⊢
          rw [List.any_eq_true] at h ⊢
          obtain ⟨i, hi, hb⟩ := h
          rw [Bool.and_eq_true] at hb
          exact ⟨i, hi, by rw [Bool.and_eq_true]; exact ⟨hb.1, ih hlek hb.2⟩⟩
        · rw [if_neg htp] at h ⊢
          rw [List.all_eq_true] at h ⊢
          intro i hi
          have := h i hi
          rw [Bool.or_eq_true] at this ⊢
          rcases this with hd | hf
          · exact Or.inl hd
          · exact Or.inr (ih hlek hf)
      | win m l => rw [forces_win_eq hcw] at h ⊢; exact h
      | draw => rw [forces_draw_eq hcw] at h ⊢; exact h

theorem forces_saturate {player : Cell} (hp : player ≠ Cell.empty) :
    ∀ fuel, ∀ {bd : Board} {turn : Cell} {v : Int}, bd.length = 9 → turn ≠ Cell.empty →
      emptyCount bd < fuel →
      forces player fuel bd turn v = forces player (emptyCount bd + 1) bd turn v := by
  intro fuel
  induction fuel with
  | zero => intro bd turn v _ _ h; omega
  | succ fuel ih =>
    intro bd turn v hlen ht hfuel
    cases hcw : checkWinner bd with
    | win m l => rw [forces_win_eq hcw, forces_win_eq hcw]
    | draw => rw [forces_draw_eq hcw, forces_draw_eq hcw]
    | inProgress =>
      rw [forces_progress_eq hcw, forces_progress_eq hcw]
      by_cases htp : turn = player
      · rw [if_pos htp, if_pos htp]
        apply list_any_congr
        intro i hi
        by_cases he : cellAt bd i = Cell.empty
        · have hcnt := emptyCount_set (by rw [hlen]; exact List.mem_range.1 hi) he ht
          have hstep : forces player fuel (bd.set i turn) (nextTurn player turn) v =
              forces player (emptyCount (bd.set i turn) + 1) (bd.set i turn)
                (nextTurn player turn) v :=
            ih (by rw [List.length_set, hlen]) (nextTurn_ne_empty hp turn) (by omega)
          rw [hstep, hcnt]
        · simp [he]
      · rw [if_neg htp, if_neg htp]
        apply list_all_congr
        intro i hi
        by_cases he : cellAt bd i = Cell.empty
        · have hcnt := emptyCount_set (by rw [hlen]; exact List.mem_range.1 hi) he ht
          have hstep : forces player fuel (bd.set i turn) (nextTurn player turn) v =
              forces player (emptyCount (bd.set i turn) + 1) (bd.set i turn)
                (nextTurn player turn) v :=
            ih (by rw [List.length_set, hlen]) (nextTurn_ne_empty hp turn) (by omega)
          rw [hstep, hcnt]
        · simp [he]

/-! ### `bestMove` characterisation and preservation of guarantees -/

theorem bestMove_eq {player : Cell} (hp : player ≠ Cell.empty) {bd : Board}
    (hlen : bd.length = 9) (hprog : checkWinner bd = Verdict.inProgress) :
    ∃ j s, pickBest (fun a b => decide (a > b)) (scoresList player 9 bd player) = some (j, s) ∧
      minimax player 10 bd player = .ok s (some j) bd ∧
      bestMove bd player = some (some j) := by
  have hw := winnerCheck_none_iff.2 hprog
  have hfuel : emptyCount bd < 9 + 1 := by
    have := emptyCount_le bd
    omega
  obtain ⟨j, s, hpick, hmm⟩ := minimax_progress hp hlen hp hw hfuel
  rw [if_pos rfl] at hpick
  have h10 : (9 : Nat) + 1 = 10 := rfl
  rw [h10] at hmm
  refine ⟨j, s, hpick, hmm, ?_⟩
  rw [bestMove, hmm]

theorem bestMove_step {player : Cell} (hp : player ≠ Cell.empty) {bd : Board} {j : Nat}
    (hlen : bd.length = 9) (hprog : checkWinner bd = Verdict.inProgress)
    (hbm : bestMove bd player = some (some j)) :
    cellAt bd j = Cell.empty ∧ j < 9 ∧
    ∀ v, canForce player bd player v = true →
      canForce player (bd.set j player) (opponentOf player) v = true := by
  obtain ⟨j', s, hpick, hmm, hbm'⟩ := bestMove_eq hp hlen hprog
  have hjj : j' = j := by
    rw [hbm'] at hbm
    exact Option.some.inj (Option.some.inj hbm)
  rw [hjj] at hpick hmm
  obtain ⟨hj9, hje, hjs⟩ := mem_scoresList.1 (pickBest_mem hpick)
  refine ⟨hje, hj9, ?_⟩
  intro v hv
  have hw := winnerCheck_none_iff.2 hprog
  have hfuel : emptyCount bd < 10 := by
    have := emptyCount_le bd
    omega
  have hforce10 : forces player 10 bd player v = true := by
    rw [forces_saturate hp 10 hlen hp hfuel]
    exact hv
  have hvle := (forces_iff hp 10 hlen hp hfuel v).1 hforce10
  rw [hmm] at hvle
  simp only [MMOut.scoreD] at hvle
  have hnt : nextTurn player player = opponentOf player := by rw [nextTurn, if_pos rfl]
  have hcnt := emptyCount_set (by omega : j < bd.length) hje hp
  have hlen' : (bd.set j player).length = 9 := by rw [List.length_set, hlen]
  have hfuel' : emptyCount (bd.set j player) < 9 := by omega
  have hchild : forces player 9 (bd.set j player) (opponentOf player) v = true := by
    apply (forces_iff hp 9 hlen' (opponentOf_ne_empty player) hfuel' v).2
    rw [← hnt]
    have hcs : v ≤ childScore player 9 bd player j := hjs ▸ hvle
    exact hcs
  rw [forces_saturate hp 9 hlen' (opponentOf_ne_empty player) hfuel'] at hchild
  exact hchild

theorem canForce_omove {player : Cell} {bd : Board} {i : Nat}
    (hlen : bd.length = 9) (hprog : checkWinner bd = Verdict.inProgress)
    (hi : i < 9) (he : cellAt bd i = Cell.empty) {v : Int}
    (h : canForce player bd (opponentOf player) v = true) :
    canForce player (bd.set i (opponentOf player)) player v = true := by
  rw [canForce, forces_progress_eq hprog, if_neg (opponentOf_ne_self player),
    List.all_eq_true] at h
  have hbody := h i (List.mem_range.2 hi)
  rw [Bool.or_eq_true, Bool.not_eq_true', decide_eq_false_iff_not] at hbody
  rcases hbody with hne | hf
  · exact absurd he hne
  · have hnt : nextTurn player (opponentOf player) = player := by
      rw [nextTurn, if_neg (opponentOf_ne_self player)]
    rw [hnt] at hf
    have hcnt := emptyCount_set (by omega : i < bd.length) he (opponentOf_ne_empty player)
    rw [canForce, hcnt]
    exact hf

theorem canForce_terminal_win {player : Cell} {bd : Board} {turn m : Cell}
    {l : Nat × Nat × Nat} (hw : checkWinner bd = Verdict.win m l)
    (h : canForce player bd turn 0 = true) : m = player := by
  rw [canForce, forces_win_eq hw] at h
  by_cases hmp : m = player
  · exact hmp
  · rw [if_neg hmp] at h
    simp at h

/-! ### The empty board forces at least a draw (exhaustive game-tree fact) -/

theorem canForce_empty_X : canForce Cell.X emptyBoard Cell.X 0 = true := by decide

theorem canForce_empty_O : canForce Cell.O emptyBoard Cell.O 0 = true := by decide

/-! ### Replay from the empty board -/

theorem reachBM_invariant {player : Cell} (hp : player ≠ Cell.empty)
    (hinit : canForce player emptyBoard player 0 = true) :
    ∀ {bd : Board} {t : Cell}, ReachBM player bd t →
      bd.length = 9 ∧ canForce player bd t 0 = true := by
  intro bd t h
  induction h with
  | init => exact ⟨by rw [emptyBoard]; exact List.length_replicate 9 _, hinit⟩
  | pmove hr hprog hbm ih =>
    obtain ⟨hlen, hcf⟩ := ih
    obtain ⟨hje, hj9, hstep⟩ := bestMove_step hp hlen hprog hbm
    exact ⟨by rw [List.length_set, hlen], hstep 0 hcf⟩
  | omove hr hprog hi he ih =>
    obtain ⟨hlen, hcf⟩ := ih
    exact ⟨by rw [List.length_set, hlen], canForce_omove hlen hprog hi he hcf⟩

theorem reachBM_no_loss {player : Cell} (hp : player ≠ Cell.empty)
    (hinit : canForce player emptyBoard player 0 = true)
    {bd : Board} {t : Cell} (h : ReachBM player bd t) {m : Cell} {l : Nat × Nat × Nat}
    (hw : checkWinner bd = Verdict.win m l) : m = player :=
  canForce_terminal_win hw (reachBM_invariant hp hinit h).2

/-! ### Claim theorems -/

/-- Claim C1: for every board on which `evaluate` (= `checkWinner`) is
InProgress with an Empty cell, the cell returned by `bestMove` secures the
game-theoretic optimal outcome for the searching side: every outcome the side
could force before the move it can still force after it — instantiating
`v = 0`, the position stays never-worse-than-a-draw whenever a draw was
achievable; instantiating `v = 1`, a forced win stays forced.  Moreover, in
replay from the empty board in which the searching side (either mark) plays
`bestMove` and the opponent replies with arbitrary legal moves, every terminal
verdict is a win of the searching side — never a loss. -/
theorem C1_bestMove_optimal (player : Cell) (bd : Board)
    (hp : player = Cell.X ∨ player = Cell.O) (hlen : bd.length = 9)
    (hprog : checkWinner bd = Verdict.inProgress)
    (hne : ∃ i, i < 9 ∧ cellAt bd i = Cell.empty) :
    (∃ j, bestMove bd player = some (some j) ∧
      ∀ v, canForce player bd player v = true →
        canForce player (bd.set j player) (opponentOf player) v = true) ∧
    (∀ bd' t, ReachBM player bd' t →
      ∀ m l, checkWinner bd' = Verdict.win m l → m = player) := by
  have hp' : player ≠ Cell.empty := by rcases hp with rfl | rfl <;> simp
  obtain ⟨j, s, hpick, hmm, hbm⟩ := bestMove_eq hp' hlen hprog
  have hinit : canForce player emptyBoard player 0 = true := by
    rcases hp with rfl | rfl
    · exact canForce_empty_X
    · exact canForce_empty_O
  refine ⟨⟨j, hbm, (bestMove_step hp' hlen hprog hbm).2.2⟩, ?_⟩
  intro bd' t hr m l hw
  exact reachBM_no_loss hp' hinit hr hw

theorem C1_witness :
    (∃ j, bestMove smallBoard Cell.X = some (some j) ∧
      ∀ v, canForce Cell.X smallBoard Cell.X v = true →
        canForce Cell.X (smallBoard.set j Cell.X) (opponentOf Cell.X) v = true) ∧
    (∀ bd' t, ReachBM Cell.X bd' t →
      ∀ m l, checkWinner bd' = Verdict.win m l → m = Cell.X) :=
  C1_bestMove_optimal Cell.X smallBoard (Or.inl rfl) (by decide) (by decide)
    ⟨5, by decide, by decide⟩

/-- Claim C2: for every board in which some line of `LINES` is completed by a
single non-Empty mark, `evaluate` returns the win of the first such line in
the fixed enumeration order — without error even on illegally double-won
boards (any decomposition of `LINES` whose prefix contains no completed line
and whose head of the remainder is completed pins down that first line). -/
theorem C2_evaluate_first_win (bd : Board) (pre suf : List (Nat × Nat × Nat))
    (l : Nat × Nat × Nat) (m : Cell) (hsplit : LINES = pre ++ l :: suf)
    (hwin : lineWonBy bd m l) (hpre : ∀ l' ∈ pre, ∀ m', ¬ lineWonBy bd m' l') :
    checkWinner bd = Verdict.win m l := by
  rw [checkWinner, hsplit, winningLine_of_first hwin hpre]

theorem C2_witness : checkWinner doubleWonBoard = Verdict.win Cell.X (0, 1, 2) :=
  C2_evaluate_first_win doubleWonBoard []
    [(3,4,5), (6,7,8), (0,3,6), (1,4,7), (2,5,8), (0,4,8), (2,4,6)]
    (0, 1, 2) Cell.X rfl (by decide) (by simp)

/-- Claim C3: for every board with no completed line, `evaluate` returns Draw
when all nine cells are occupied and InProgress when some cell is Empty. -/
theorem C3_evaluate_draw_or_progress (bd : Board) (hlen : bd.length = 9)
    (hno : ∀ l ∈ LINES, ∀ m, ¬ lineWonBy bd m l) :
    ((∀ i, i < 9 → cellAt bd i ≠ Cell.empty) → checkWinner bd = Verdict.draw) ∧
    ((∃ i, i < 9 ∧ cellAt bd i = Cell.empty) → checkWinner bd = Verdict.inProgress) := by
  have hwl : winningLine LINES bd = none := winningLine_none hno
  constructor
  · intro hfull
    rw [checkWinner, hwl,
      if_pos (all_truthy_iff.2 (fun i hi => hfull i (by omega)))]
  · rintro ⟨i, hi, he⟩
    have hfl : bd.all truthy = false := not_all_truthy_iff.2 ⟨i, by omega, he⟩
    rw [checkWinner, hwl, if_neg (by rw [hfl]; exact Bool.false_ne_true)]

theorem C3_witness : checkWinner fullDrawBoard = Verdict.draw :=
  (C3_evaluate_draw_or_progress fullDrawBoard (by decide) (by decide)).1 (by decide)

/-- Claim C4: tie-break policy — when several Empty cells achieve the same
optimal root score, `bestMove` returns the lowest such index: the returned
cell's child score is maximal among all Empty cells' child scores, and every
Empty cell of strictly lower index has a strictly worse child score (the
choice is a function of the board and side, hence deterministic). -/
theorem C4_bestMove_tiebreak (player : Cell) (bd : Board)
    (hp : player = Cell.X ∨ player = Cell.O) (hlen : bd.length = 9)
    (hprog : checkWinner bd = Verdict.inProgress)
    (hne : ∃ i, i < 9 ∧ cellAt bd i = Cell.empty) :
    ∃ j, bestMove bd player = some (some j) ∧ cellAt bd j = Cell.empty ∧
      (∀ k, k < 9 → cellAt bd k = Cell.empty →
        childScore player 9 bd player k ≤ childScore player 9 bd player j) ∧
      (∀ k, k < j → cellAt bd k = Cell.empty →
        childScore player 9 bd player k < childScore player 9 bd player j) := by
  have hp' : player ≠ Cell.empty := by rcases hp with rfl | rfl <;> simp
  obtain ⟨j, s, hpick, hmm, hbm⟩ := bestMove_eq hp' hlen hprog
  obtain ⟨hj9, hje, hjs⟩ := mem_scoresList.1 (pickBest_mem hpick)
  refine ⟨j, hbm, hje, ?_, ?_⟩
  · intro k hk hke
    have hkmem : (k, childScore player 9 bd player k) ∈ scoresList player 9 bd player :=
      mem_scoresList.2 ⟨hk, hke, rfl⟩
    have hle := pickBest_max hpick _ hkmem
    rw [← hjs]
    exact hle
  · intro k hk hke
    have hk9 : k < 9 := by omega
    have hkmem : (k, childScore player 9 bd player k) ∈ scoresList player 9 bd player :=
      mem_scoresList.2 ⟨hk9, hke, rfl⟩
    have hlt := pickBest_max_first (scoresList_sorted player 9 bd player) hpick _ hkmem hk
    rw [← hjs]
    exact hlt

theorem C4_witness :
    ∃ j, bestMove blockBoard Cell.O = some (some j) ∧ cellAt blockBoard j = Cell.empty ∧
      (∀ k, k < 9 → cellAt blockBoard k = Cell.empty →
        childScore Cell.O 9 blockBoard Cell.O k ≤ childScore Cell.O 9 blockBoard Cell.O j) ∧
      (∀ k, k < j → cellAt blockBoard k = Cell.empty →
        childScore Cell.O 9 blockBoard Cell.O k < childScore Cell.O 9 blockBoard Cell.O j) :=
  C4_bestMove_tiebreak Cell.O blockBoard (Or.inr rfl) (by decide) (by decide)
    ⟨1, by decide, by decide⟩

/-- Claim C5: on every InProgress board with an Empty cell, `bestMove`
returns an index between 0 and 8 whose cell is Empty, for either side. -/
theorem C5_bestMove_legal (player : Cell) (bd : Board)
    (hp : player = Cell.X ∨ player = Cell.O) (hlen : bd.length = 9)
    (hprog : checkWinner bd = Verdict.inProgress)
    (hne : ∃ i, i < 9 ∧ cellAt bd i = Cell.empty) :
    ∃ j, bestMove bd player = some (some j) ∧ j ≤ 8 ∧ cellAt bd j = Cell.empty := by
  have hp' : player ≠ Cell.empty := by rcases hp with rfl | rfl <;> simp
  obtain ⟨j, s, hpick, hmm, hbm⟩ := bestMove_eq hp' hlen hprog
  obtain ⟨hj9, hje, _⟩ := mem_scoresList.1 (pickBest_mem hpick)
  exact ⟨j, hbm, by omega, hje⟩

theorem C5_witness :
    ∃ j, bestMove smallBoard Cell.O = some (some j) ∧ j ≤ 8 ∧
      cellAt smallBoard j = Cell.empty :=
  C5_bestMove_legal Cell.O smallBoard (Or.inr rfl) (by decide) (by decide)
    ⟨5, by decide, by decide⟩

/-- Claim C6: invoking `bestMove` on a terminal board, or on a board with no
Empty cell, yields the contract-violation outcome: the JS `undefined`
(`some none` — no cell index) instead of an index; the call returns normally,
with no out-of-range index and no crashing array access. -/
theorem C6_bestMove_invalid (player : Cell) (bd : Board)
    (hp : player = Cell.X ∨ player = Cell.O) (hlen : bd.length = 9)
    (hterm : checkWinner bd ≠ Verdict.inProgress ∨
      ∀ i, i < 9 → cellAt bd i ≠ Cell.empty) :
    bestMove bd player = some none := by
  have hp' : player ≠ Cell.empty := by rcases hp with rfl | rfl <;> simp
  have hterm' : ∃ r, winnerCheck bd = some r := by
    rcases hterm with hnp | hfull
    · cases hcw : checkWinner bd with
      | inProgress => exact absurd hcw hnp
      | win m l => exact ⟨_, winnerCheck_of_win hcw⟩
      | draw => exact ⟨_, winnerCheck_of_draw hcw⟩
    · cases hw : winningLine LINES bd with
      | some p =>
        obtain ⟨m, l⟩ := p
        exact ⟨WRes.mark m, by rw [winnerCheck, hw]⟩
      | none =>
        exact ⟨WRes.draw, by
          rw [winnerCheck, hw,
            if_pos (all_truthy_iff.2 (fun i hi => hfull i (by omega)))]⟩
  obtain ⟨r, hr⟩ := hterm'
  have h10 : (10 : Nat) = 9 + 1 := rfl
  cases r with
  | mark m =>
    have hmm : minimax player (9 + 1) bd player =
        MMOut.ok (if m = player then 1 else -1) none bd := minimax_mark hp' hr
    rw [bestMove, h10, hmm]
  | draw =>
    have hmm : minimax player (9 + 1) bd player = MMOut.ok 0 none bd := minimax_draw hr
    rw [bestMove, h10, hmm]

theorem C6_witness : bestMove wonBoard Cell.X = some none :=
  C6_bestMove_invalid Cell.X wonBoard (Or.inl rfl) (by decide) (Or.inl (by decide))

/-- Claim C7: no mutation leaks: on any 9-cell board, with either mark
searching and either side to move, `minimax` returns normally with a final
board identical to the board it was given — every hypothetical placement in
the loop was removed before moving on, so nothing leaks across sibling
branches or back to the caller (`bestMove` additionally hands `minimax` a
fresh copy of the caller's array). -/
theorem C7_minimax_restores (player turn : Cell) (bd : Board) (fuel : Nat)
    (hp : player = Cell.X ∨ player = Cell.O) (hlen : bd.length = 9)
    (ht : turn = player ∨ turn = opponentOf player) (hfuel : emptyCount bd < fuel) :
    ∃ s mi, minimax player fuel bd turn = MMOut.ok s mi bd := by
  have hp' : player ≠ Cell.empty := by rcases hp with rfl | rfl <;> simp
  have ht' : turn ≠ Cell.empty := by
    rcases ht with rfl | rfl
    · exact hp'
    · exact opponentOf_ne_empty player
  exact minimax_total hp' fuel bd turn hlen ht' hfuel

theorem C7_witness :
    ∃ s mi, minimax Cell.X 10 blockBoard Cell.X = MMOut.ok s mi blockBoard :=
  C7_minimax_restores Cell.X Cell.X blockBoard 10 (Or.inl rfl) (by decide)
    (Or.inl rfl) (by decide)

/-- Claim C8: on the board with A (X) at 0 and B (O) at 3 and 4, A searching:
no Empty cell gives A an immediate win, and `bestMove` returns 5 — the cell
blocking B's threatened line {3,4,5}. -/
theorem C8_bestMove_blocks :
    (∀ k, k < 9 → cellAt blockBoard k = Cell.empty →
      (checkWinner (blockBoard.set k Cell.X)).isWinFor Cell.X = false) ∧
    bestMove blockBoard Cell.X = some (some 5) := by
  constructor
  · decide
  · decide

/-- Claim C9: both operations are total: `evaluate` yields one of its three
verdict shapes on every board, and the minimax recursion is bounded by the
number of Empty cells — with any fuel exceeding that number (10 always
suffices for a 9-cell board, at most 9 empties) the fuel guard is never
reached. -/
theorem C9_total (player turn : Cell) (bd : Board)
    (hp : player = Cell.X ∨ player = Cell.O) (hlen : bd.length = 9)
    (ht : turn = player ∨ turn = opponentOf player) :
    (checkWinner bd = Verdict.inProgress ∨ checkWinner bd = Verdict.draw ∨
      ∃ m l, checkWinner bd = Verdict.win m l) ∧
    (∀ fuel, emptyCount bd < fuel → minimax player fuel bd turn ≠ MMOut.outOfFuel) ∧
    minimax player 10 bd turn ≠ MMOut.outOfFuel := by
  have hp' : player ≠ Cell.empty := by rcases hp with rfl | rfl <;> simp
  have ht' : turn ≠ Cell.empty := by
    rcases ht with rfl | rfl
    · exact hp'
    · exact opponentOf_ne_empty player
  have htot : ∀ fuel, emptyCount bd < fuel →
      minimax player fuel bd turn ≠ MMOut.outOfFuel := by
    intro fuel hfuel
    obtain ⟨s, mi, hmm⟩ := minimax_total hp' fuel bd turn hlen ht' hfuel
    rw [hmm]
    simp
  refine ⟨?_, htot, htot 10 (by have := emptyCount_le bd; omega)⟩
  cases h : checkWinner bd with
  | inProgress => exact Or.inl rfl
  | draw => exact Or.inr (Or.inl rfl)
  | win m l => exact Or.inr (Or.inr ⟨m, l, rfl⟩)

theorem C9_witness :
    (checkWinner smallBoard = Verdict.inProgress ∨ checkWinner smallBoard = Verdict.draw ∨
      ∃ m l, checkWinner smallBoard = Verdict.win m l) ∧
    (∀ fuel, emptyCount smallBoard < fuel →
      minimax Cell.X fuel smallBoard Cell.X ≠ MMOut.outOfFuel) ∧
    minimax Cell.X 10 smallBoard Cell.X ≠ MMOut.outOfFuel :=
  C9_total Cell.X Cell.X smallBoard (Or.inl rfl) (by decide) (Or.inl rfl)

/-- Claim C10: the child-score aggregation is always well-defined: whenever
the internal winner check sees a non-terminal board, at least one cell is
Empty, so the collected score list is non-empty — and consequently the
`scores[0]` read can never hit a missing element: the crash outcome of the
search is unreachable for sufficient fuel. -/
theorem C10_no_crash (player turn : Cell) (bd : Board)
    (hp : player = Cell.X ∨ player = Cell.O) (hlen : bd.length = 9)
    (ht : turn = player ∨ turn = opponentOf player) :
    (∀ fuel, winnerCheck bd = none → scoresList player fuel bd turn ≠ []) ∧
    (∀ fuel, emptyCount bd < fuel → minimax player fuel bd turn ≠ MMOut.crash) := by
  have hp' : player ≠ Cell.empty := by rcases hp with rfl | rfl <;> simp
  have ht' : turn ≠ Cell.empty := by
    rcases ht with rfl | rfl
    · exact hp'
    · exact opponentOf_ne_empty player
  constructor
  · intro fuel hw
    exact scoresList_ne_nil player fuel turn hlen hw
  · intro fuel hfuel
    obtain ⟨s, mi, hmm⟩ := minimax_total hp' fuel bd turn hlen ht' hfuel
    rw [hmm]
    simp

theorem C10_witness :
    (∀ fuel, winnerCheck blockBoard = none →
      scoresList Cell.O fuel blockBoard Cell.O ≠ []) ∧
    (∀ fuel, emptyCount blockBoard < fuel →
      minimax Cell.O fuel blockBoard Cell.O ≠ MMOut.crash) :=
  C10_no_crash Cell.O Cell.O blockBoard (Or.inr rfl) (by decide) (Or.inl rfl)
